import Mathlib

/-
  Verification of the meli-envoyer backend connection core.

  Shallow embedding of the IMAP connection engine
  (src/melib/src/backends/imap/connection.rs), the JMAP fetch state logic
  (src/melib/src/backends/jmap/protocol.rs) and the search-query AST
  (src/ui/src/cache.rs), with theorems settling the specification claims.

  Bytes are modelled as `List Char` (the source works on ASCII byte slices).
-/

/-- Byte 13, carriage return. -/
def CR : Char := Char.ofNat 13

/-- Byte 10, line feed. -/
def LF : Char := Char.ofNat 10

/-- ASCII space. -/
def SP : Char := Char.ofNat 32

/-- The CRLF line terminator used throughout the IMAP wire protocol. -/
def crlf : List Char := [CR, LF]

/-- View a string literal as a byte list. -/
def bytes (s : String) : List Char := s.toList

/-- Boolean test that `p` is an initial segment of `l`. -/
def isPre : List Char → List Char → Bool
  | [], _ => true
  | _ :: _, [] => false
  | a :: as, b :: bs => a == b && isPre as bs

theorem isPre_iff (p l : List Char) : isPre p l = true ↔ ∃ t, p ++ t = l := by
  induction p generalizing l with
  | nil => simp [isPre]
  | cons a as ih =>
    cases l with
    | nil => simp [isPre]
    | cons b bs =>
      simp only [isPre, Bool.and_eq_true, beq_iff_eq, ih]
      constructor
      · rintro ⟨rfl, t, rfl⟩
        exact ⟨t, rfl⟩
      · rintro ⟨t, h⟩
        injection h with h1 h2
        exact ⟨h1, t, h2⟩

theorem isPre_append (p t : List Char) : isPre p (p ++ t) = true :=
  (isPre_iff p (p ++ t)).mpr ⟨t, rfl⟩

theorem isPre_self (p : List Char) : isPre p p = true := by
  simpa using isPre_append p []

/- ===================== C10 : search query AST (src/ui/src/cache.rs) ===== -/

/-- The search-query AST from src/ui/src/cache.rs (enum Query). -/
inductive Query where
  | before (t : Nat)
  | after (t : Nat)
  | between (a b : Nat)
  | on (t : Nat)
  | from_ (s : List Char)
  | to (s : List Char)
  | cc (s : List Char)
  | bcc (s : List Char)
  | inReplyTo (s : List Char)
  | references (s : List Char)
  | allAddresses (s : List Char)
  | body (s : List Char)
  | subject (s : List Char)
  | allText (s : List Char)
  | flag (f : Nat)
  | and (a b : Query)
  | or (a b : Query)
  | not (q : Query)
deriving DecidableEq

/-- The `std::ops::Not` implementation for Query: negating `Not(q)` unwraps
to `q`, anything else is wrapped in `Not`. -/
def queryNot : Query → Query
  | .not q => q
  | q => .not q

/-- True exactly on values of the form `Not(Not(r))`. -/
def isDoubleNot : Query → Bool
  | .not (.not _) => true
  | _ => false

/-- C10 counterexample: on `Not(Not(AllText "a"))`, applying the Not operator
twice yields `AllText "a"`, not the original value, so negation is not an
involution on the whole AST. -/
theorem query_not_not_counterexample :
    queryNot (queryNot (Query.not (Query.not (Query.allText (bytes "a")))))
      ≠ Query.not (Query.not (Query.allText (bytes "a"))) := by
  decide

/-- True exactly on values whose top constructor is `Not`. -/
def isNotQ : Query → Bool
  | .not _ => true
  | _ => false

theorem queryNot_of_isNotQ_false (q : Query) (h : isNotQ q = false) :
    queryNot q = Query.not q := by
  cases q <;> first | rfl | simp [isNotQ] at h

/-- C10 amended: negating a `Not(q)` value always unwraps to the inner `q`,
and for every query value not of the form `Not(Not(r))`, applying the Not
operator twice yields the original value. -/
theorem query_not_involution (q : Query) (h : isDoubleNot q = false) :
    (∀ r : Query, queryNot (Query.not r) = r) ∧ queryNot (queryNot q) = q := by
  refine ⟨fun r => rfl, ?_⟩
  by_cases hq : isNotQ q = true
  · obtain ⟨r, rfl⟩ : ∃ r, q = Query.not r := by
      cases q <;> first | exact ⟨_, rfl⟩ | simp [isNotQ] at hq
    have hr : isNotQ r = false := by
      cases r <;> first | rfl | simp [isDoubleNot] at h
    have h1 : queryNot (Query.not r) = r := rfl
    rw [h1, queryNot_of_isNotQ_false r hr]
  · have h0 : isNotQ q = false := by simpa using hq
    rw [queryNot_of_isNotQ_false q h0]
    rfl

/-- C10 witness: the amended involution evaluated at `AllText "a"`. -/
theorem query_not_involution_witness :
    (∀ r : Query, queryNot (Query.not r) = r) ∧
      queryNot (queryNot (Query.allText (bytes "a"))) = Query.allText (bytes "a") :=
  query_not_involution (Query.allText (bytes "a")) (by decide)

/- ===================== C1 : JMAP fetch state logic ====================== -/

/-- State-token bookkeeping at the end of jmap/protocol.rs `fetch`: the
source computes `is_empty` and a variable named `is_equal` that actually
stores the result of the `!=` comparison; if the stored state is empty the
new state is stored, otherwise `email_changes()` is invoked when
`!is_equal` holds.  Returns the stored state afterwards and whether
`email_changes` was invoked. -/
def fetchStateUpdate (stored newState : List Char) : List Char × Bool :=
  let is_empty := stored.isEmpty
  let is_equal := stored != newState
  if is_empty then (newState, false)
  else if !is_equal then (stored, true)
  else (stored, false)

/-- C1: evaluation of the fetch state logic at the failing input.  With the
stored Email state "S1" and a server-returned state "S2" the code does not
invoke email_changes (the claim and spec say it must), while with an
unchanged state "S1" it does invoke it; the empty-state branch stores the
new state without invoking email_changes as claimed. -/
theorem jmap_fetch_state_bug :
    fetchStateUpdate (bytes "S1") (bytes "S2") = (bytes "S1", false) ∧
      fetchStateUpdate (bytes "S1") (bytes "S1") = (bytes "S1", true) ∧
      fetchStateUpdate (bytes "") (bytes "S1") = (bytes "S1", false) := by
  refine ⟨?_, ?_, ?_⟩ <;> decide

/- ===================== Error model (spec section 7) ===================== -/

/-- Modelled from the spec: melib's `error` module (MeliError, ErrorKind) is
not under src/.  Spec section 7 lists the kinds Network, Timeout,
Authentication, ProtocolError, Bug, NotImplemented, ValueError; the source
under src/ attaches a kind only through explicit `set_kind` or
`set_err_kind` calls, so an error built by `MeliError::new` carries no
classification, modelled by the `none` kind. -/
inductive ErrorKindM where
  | none
  | network
  | timeout
  | authentication
  | protocolError
  | bug
  | notImplemented
  | valueError
deriving DecidableEq

/-- Modelled from the spec: `ErrorKind::is_network` tests the Network kind. -/
def ErrorKindM.isNetwork : ErrorKindM → Bool
  | .network => true
  | _ => false

/-- Modelled from the spec: a MeliError value, carrying its summary message
and its kind. -/
structure MeliErrorM where
  msg : List Char
  kind : ErrorKindM
deriving DecidableEq

/-- Modelled from the spec: `MeliError::new(msg)` attaches no kind. -/
def meliErrNew (msg : List Char) : MeliErrorM := ⟨msg, .none⟩

/-- Modelled from the spec: `set_kind` / `set_err_kind` replace the kind. -/
def MeliErrorM.setKind (e : MeliErrorM) (k : ErrorKindM) : MeliErrorM :=
  ⟨e.msg, k⟩

/- ===================== C5 : sync policy ================================= -/

/-- SyncPolicy from connection.rs. -/
inductive SyncPolicyM where
  | none
  | basic
  | condstore
  | condstoreQresync
deriving DecidableEq

/-- Ordering rank of a sync policy, for the no-downgrade statement. -/
def SyncPolicyM.rank : SyncPolicyM → Nat
  | .none => 0
  | .basic => 1
  | .condstore => 2
  | .condstoreQresync => 3

/-- Initial sync policy from ImapConnection::new_connection: Basic when the
offline cache is kept, otherwise None. -/
def initialSyncPolicy (keepOfflineCache : Bool) : SyncPolicyM :=
  if keepOfflineCache then .basic else .none

/-- Exact byte-equality membership, as HashSet::contains on byte vectors in
ImapConnection::connect. -/
def capsHas (caps : List (List Char)) (s : List Char) : Bool :=
  caps.any (fun c => c == s)

/-- Sync-policy update performed by ImapConnection::connect after a stream
is (re)established: when the server advertises CONDSTORE and the user
enabled it, a policy other than None is set to Condstore (after sending
ENABLE CONDSTORE or the STATUS fallback); otherwise the policy is left
unchanged.  QRESYNC is never consulted. -/
def connectSyncUpdate (caps : List (List Char)) (condstorePref : Bool)
    (p : SyncPolicyM) : SyncPolicyM :=
  if capsHas caps (bytes "CONDSTORE") && condstorePref then
    match p with
    | .none => .none
    | _ => .condstore
  else p

/-- C5 counterexample: with CONDSTORE, QRESYNC and ENABLE all advertised,
the user preference enabled and the offline cache kept (initial policy
Basic), connect sets the policy to Condstore, not CondstoreQresync as the
claim states. -/
theorem sync_policy_qresync_counterexample :
    connectSyncUpdate [bytes "CONDSTORE", bytes "QRESYNC", bytes "ENABLE"]
        true (initialSyncPolicy true) = SyncPolicyM.condstore ∧
      SyncPolicyM.condstore ≠ SyncPolicyM.condstoreQresync := by
  refine ⟨?_, ?_⟩ <;> decide

/-- C5 amended: the policy is None exactly when the offline cache is
disabled and a None policy stays None across connect; otherwise it starts
as Basic and is upgraded during connect to Condstore when the user enables
CONDSTORE and the server advertises it, regardless of whether QRESYNC is
advertised (connect never selects CondstoreQresync); across the policies
this code can reach (None, Basic, Condstore) the update never downgrades. -/
theorem sync_policy_amended (caps : List (List Char)) (pref : Bool)
    (p : SyncPolicyM) (hreach : p ≠ SyncPolicyM.condstoreQresync) :
    (∀ keep : Bool, initialSyncPolicy keep =
        if keep then SyncPolicyM.basic else SyncPolicyM.none) ∧
      (∀ caps2 pref2, connectSyncUpdate caps2 pref2 SyncPolicyM.none
        = SyncPolicyM.none) ∧
      (p ≠ SyncPolicyM.none → capsHas caps (bytes "CONDSTORE") = true →
        pref = true → connectSyncUpdate caps pref p = SyncPolicyM.condstore) ∧
      p.rank ≤ (connectSyncUpdate caps pref p).rank ∧
      connectSyncUpdate caps pref p ≠ SyncPolicyM.condstoreQresync := by
  refine ⟨?_, ?_, ?_, ?_, ?_⟩
  · intro keep; cases keep <;> simp [initialSyncPolicy]
  · intro caps2 pref2
    unfold connectSyncUpdate
    cases h : capsHas caps2 (bytes "CONDSTORE") && pref2 <;> simp [h]
  · intro hne hcap hpref
    subst hpref
    cases p <;> simp_all [connectSyncUpdate]
  · unfold connectSyncUpdate
    split
    · cases p <;> first | decide | exact absurd rfl hreach
    · exact Nat.le_refl _
  · unfold connectSyncUpdate
    split
    · cases p <;> decide
    · exact hreach

/-- C5 witness: the amended statement evaluated with CONDSTORE and QRESYNC
advertised and the policy at Basic. -/
theorem sync_policy_amended_witness :
    (∀ keep : Bool, initialSyncPolicy keep =
        if keep then SyncPolicyM.basic else SyncPolicyM.none) ∧
      (∀ caps2 pref2, connectSyncUpdate caps2 pref2 SyncPolicyM.none
        = SyncPolicyM.none) ∧
      (SyncPolicyM.basic ≠ SyncPolicyM.none →
        capsHas [bytes "CONDSTORE", bytes "QRESYNC"] (bytes "CONDSTORE") = true →
        true = true →
        connectSyncUpdate [bytes "CONDSTORE", bytes "QRESYNC"] true
          SyncPolicyM.basic = SyncPolicyM.condstore) ∧
      SyncPolicyM.basic.rank ≤
        (connectSyncUpdate [bytes "CONDSTORE", bytes "QRESYNC"] true
          SyncPolicyM.basic).rank ∧
      connectSyncUpdate [bytes "CONDSTORE", bytes "QRESYNC"] true
        SyncPolicyM.basic ≠ SyncPolicyM.condstoreQresync :=
  sync_policy_amended [bytes "CONDSTORE", bytes "QRESYNC"] true
    SyncPolicyM.basic (by decide)

/- ===================== C6 : new_connection capability gate ============== -/

/-- ASCII lowercase of one character, for eq_ignore_ascii_case. -/
def lowerAscii (c : Char) : Char :=
  if 65 ≤ c.toNat ∧ c.toNat ≤ 90 then Char.ofNat (c.toNat + 32) else c

/-- Byte-wise case-insensitive equality, as slice::eq_ignore_ascii_case. -/
def eqIgnoreAsciiCase (a b : List Char) : Bool :=
  a.map lowerAscii == b.map lowerAscii

/-- Which authentication command new_connection would send next. -/
inductive AuthAction where
  | xoauth2
  | login
deriving DecidableEq

/-- The capability checks of ImapStream::new_connection between the
CAPABILITY response and the authentication command (connection.rs lines
344-397): reject non-IMAP4rev1 servers (plain error), reject
LOGINDISABLED with an Authentication-kind error, and under OAUTH2 reject a
missing AUTH=XOAUTH2 capability with a plain error built by
`MeliError::new` with no kind attached; otherwise report which
authentication command is sent. -/
def capabilityGate (caps : List (List Char)) (oauth2 : Bool) :
    Except MeliErrorM AuthAction :=
  if !(caps.any fun cap => eqIgnoreAsciiCase cap (bytes "IMAP4rev1")) then
    .error (meliErrNew (bytes "server is not IMAP4rev1 compliant"))
  else if caps.any fun cap => eqIgnoreAsciiCase cap (bytes "LOGINDISABLED") then
    .error ((meliErrNew
      (bytes "server does not accept logins [LOGINDISABLED]")).setKind
        .authentication)
  else if oauth2 then
    if !(caps.any fun cap => eqIgnoreAsciiCase cap (bytes "AUTH=XOAUTH2")) then
      .error (meliErrNew
        (bytes "OAUTH2 is enabled but server did not return AUTH=XOAUTH2 capability"))
    else .ok .xoauth2
  else .ok .login

/-- Extracts the kind of an error result, when there is one. -/
def gateErrKind : Except MeliErrorM AuthAction → Option ErrorKindM
  | .error e => some e.kind
  | .ok _ => Option.none

/-- C6 counterexample: with capabilities IMAP4rev1 and AUTH=PLAIN only and
OAUTH2 enabled, new_connection aborts, but the error it returns is built
by `MeliError::new` with no `set_kind` call, so its kind is not
Authentication (unlike the LOGINDISABLED error two branches above). -/
theorem oauth2_error_kind_counterexample :
    gateErrKind (capabilityGate [bytes "IMAP4rev1", bytes "AUTH=PLAIN"] true)
        = some ErrorKindM.none ∧
      some ErrorKindM.none ≠ some ErrorKindM.authentication := by
  refine ⟨?_, ?_⟩ <;> decide

/-- C6 amended: when the server's CAPABILITY response contains LOGINDISABLED
(and IMAP4rev1), new_connection fails before sending any authentication
command with an error of kind Authentication; when OAUTH2 is enabled but
AUTH=XOAUTH2 is absent the connection likewise aborts before sending
AUTHENTICATE, but that error carries no explicit kind (in particular not
Authentication). -/
theorem capability_gate_amended (caps : List (List Char)) (oauth2 : Bool)
    (h4rev : (caps.any fun cap => eqIgnoreAsciiCase cap (bytes "IMAP4rev1")) = true) :
    ((caps.any fun cap => eqIgnoreAsciiCase cap (bytes "LOGINDISABLED")) = true →
      gateErrKind (capabilityGate caps oauth2) = some ErrorKindM.authentication) ∧
    ((caps.any fun cap => eqIgnoreAsciiCase cap (bytes "LOGINDISABLED")) = false →
      oauth2 = true →
      (caps.any fun cap => eqIgnoreAsciiCase cap (bytes "AUTH=XOAUTH2")) = false →
      gateErrKind (capabilityGate caps oauth2) = some ErrorKindM.none) := by
  constructor
  · intro hdis
    unfold capabilityGate
    rw [h4rev, hdis]
    rfl
  · intro hdis hoauth hmiss
    subst hoauth
    unfold capabilityGate
    rw [h4rev, hdis, hmiss]
    rfl

/-- C6 witness: the amended statement evaluated at a LOGINDISABLED
capability set and at an OAUTH2 configuration missing AUTH=XOAUTH2. -/
theorem capability_gate_amended_witness :
    (((bytes "IMAP4rev1") :: [bytes "LOGINDISABLED"]).any
        (fun cap => eqIgnoreAsciiCase cap (bytes "LOGINDISABLED")) = true ∧
      gateErrKind (capabilityGate [bytes "IMAP4rev1", bytes "LOGINDISABLED"] false)
        = some ErrorKindM.authentication) ∧
    gateErrKind (capabilityGate [bytes "IMAP4rev1"] true) = some ErrorKindM.none :=
  ⟨⟨by decide,
    (capability_gate_amended [bytes "IMAP4rev1", bytes "LOGINDISABLED"] false
      (by decide)).1 (by decide)⟩,
   (capability_gate_amended [bytes "IMAP4rev1"] true (by decide)).2
     (by decide) rfl (by decide)⟩

/- ===================== C7 : connection send wrappers ==================== -/

/-- Observable side effects of one ImapConnection send wrapper call. -/
inductive WrapEvent where
  | streamSetErr (e : MeliErrorM)
  | connectCalled
  | onlineUpdated
deriving DecidableEq

/-- ImapConnection::send_command (connection.rs lines 823-836): forwards to
the stream's send_command (an errored stream yields its stored error); on
failure stores the error as the stream state, reconnects when the error
kind is Network (propagating a reconnect failure), and otherwise returns
the original error; on success records the connection as online. -/
def connSendCommand (streamSt : Except MeliErrorM Unit)
    (opResult : Except MeliErrorM Unit)
    (connectResult : Except MeliErrorM Unit) :
    List WrapEvent × Except MeliErrorM Unit :=
  let underlying : Except MeliErrorM Unit :=
    match streamSt with
    | .error e => .error e
    | .ok _ => opResult
  match underlying with
  | .error err =>
    if err.kind.isNetwork then
      match connectResult with
      | .error e2 => ([.streamSetErr err, .connectCalled], .error e2)
      | .ok _ => ([.streamSetErr err, .connectCalled], .error err)
    else ([.streamSetErr err], .error err)
  | .ok _ => ([.onlineUpdated], .ok ())

/-- ImapConnection::send_literal (connection.rs lines 838-849): same error
handling as send_command but no online-status update on success. -/
def connSendLiteral (streamSt : Except MeliErrorM Unit)
    (opResult : Except MeliErrorM Unit)
    (connectResult : Except MeliErrorM Unit) :
    List WrapEvent × Except MeliErrorM Unit :=
  let underlying : Except MeliErrorM Unit :=
    match streamSt with
    | .error e => .error e
    | .ok _ => opResult
  match underlying with
  | .error err =>
    if err.kind.isNetwork then
      match connectResult with
      | .error e2 => ([.streamSetErr err, .connectCalled], .error e2)
      | .ok _ => ([.streamSetErr err, .connectCalled], .error err)
    else ([.streamSetErr err], .error err)
  | .ok _ => ([], .ok ())

/-- ImapConnection::send_raw (connection.rs lines 851-861): identical error
handling to send_literal. -/
def connSendRaw (streamSt : Except MeliErrorM Unit)
    (opResult : Except MeliErrorM Unit)
    (connectResult : Except MeliErrorM Unit) :
    List WrapEvent × Except MeliErrorM Unit :=
  connSendLiteral streamSt opResult connectResult

/-- C7 counterexample: the stream send fails with a Network-kind error and
the reconnect attempt itself fails with a Timeout-kind error; send_command
then returns the reconnect error, not the original error as the claim
states. -/
theorem send_wrapper_counterexample :
    (connSendCommand (.ok ())
        (.error ⟨bytes "broken pipe", ErrorKindM.network⟩)
        (.error ⟨bytes "Connection timed out", ErrorKindM.timeout⟩)).2
      = .error ⟨bytes "Connection timed out", ErrorKindM.timeout⟩ ∧
    (Except.error ⟨bytes "Connection timed out", ErrorKindM.timeout⟩ :
        Except MeliErrorM Unit)
      ≠ .error ⟨bytes "broken pipe", ErrorKindM.network⟩ := by
  refine ⟨rfl, ?_⟩
  intro h
  injection h with h1
  exact absurd h1 (by decide)

/-- C7 amended: for each send wrapper (send_command, send_literal,
send_raw), when the underlying stream operation fails with error `e` the
stream is set to that error state, connect() is invoked exactly when the
error kind is Network, and the original error is returned unless the
reconnect attempt itself fails, in which case the reconnect error is
returned; on success the wrapper returns Ok. -/
theorem send_wrapper_amended (op cr : Except MeliErrorM Unit)
    (e : MeliErrorM) (hop : op = .error e) :
    (∀ f ∈ [connSendCommand, connSendLiteral, connSendRaw],
      (WrapEvent.streamSetErr e) ∈ (f (.ok ()) op cr).1 ∧
      ((WrapEvent.connectCalled ∈ (f (.ok ()) op cr).1) ↔ e.kind.isNetwork = true) ∧
      (f (.ok ()) op cr).2 =
        (if e.kind.isNetwork then
          match cr with
          | .error e2 => .error e2
          | .ok _ => .error e
        else .error e)) ∧
    (∀ f ∈ [connSendCommand, connSendLiteral, connSendRaw],
      (f (.ok ()) (.ok ()) cr).2 = .ok ()) := by
  subst hop
  constructor
  · intro f hf
    have hcases : f = connSendCommand ∨ f = connSendLiteral ∨ f = connSendRaw := by
      simpa using hf
    have hgoal : ∀ g, g = connSendCommand ∨ g = connSendLiteral ∨ g = connSendRaw →
        (WrapEvent.streamSetErr e) ∈ (g (.ok ()) (.error e) cr).1 ∧
        ((WrapEvent.connectCalled ∈ (g (.ok ()) (.error e) cr).1) ↔
          e.kind.isNetwork = true) ∧
        (g (.ok ()) (.error e) cr).2 =
          (if e.kind.isNetwork then
            match cr with
            | .error e2 => .error e2
            | .ok _ => .error e
          else .error e) := by
      rintro g (rfl | rfl | rfl) <;>
        · cases hk : e.kind.isNetwork <;> cases cr <;>
            simp [connSendCommand, connSendLiteral, connSendRaw, hk]
    exact hgoal f hcases
  · intro f hf
    have hcases : f = connSendCommand ∨ f = connSendLiteral ∨ f = connSendRaw := by
      simpa using hf
    rcases hcases with rfl | rfl | rfl <;> rfl

/-- C7 witness: the amended statement at a concrete Network-kind failure. -/
theorem send_wrapper_amended_witness :
    (∀ f ∈ [connSendCommand, connSendLiteral, connSendRaw],
      (WrapEvent.streamSetErr ⟨bytes "broken pipe", ErrorKindM.network⟩)
          ∈ (f (.ok ()) (.error ⟨bytes "broken pipe", ErrorKindM.network⟩)
            (.ok ())).1 ∧
      ((WrapEvent.connectCalled ∈ (f (.ok ())
          (.error ⟨bytes "broken pipe", ErrorKindM.network⟩) (.ok ())).1) ↔
        (⟨bytes "broken pipe", ErrorKindM.network⟩ : MeliErrorM).kind.isNetwork
          = true) ∧
      (f (.ok ()) (.error ⟨bytes "broken pipe", ErrorKindM.network⟩)
          (.ok ())).2 =
        (if (⟨bytes "broken pipe", ErrorKindM.network⟩ : MeliErrorM).kind.isNetwork
            then
          match (Except.ok () : Except MeliErrorM Unit) with
          | .error e2 => .error e2
          | .ok _ => .error ⟨bytes "broken pipe", ErrorKindM.network⟩
        else .error ⟨bytes "broken pipe", ErrorKindM.network⟩)) ∧
    (∀ f ∈ [connSendCommand, connSendLiteral, connSendRaw],
      (f (.ok ()) (.ok ()) (.ok ())).2 = .ok ()) :=
  send_wrapper_amended (.error ⟨bytes "broken pipe", ErrorKindM.network⟩)
    (.ok ()) ⟨bytes "broken pipe", ErrorKindM.network⟩ rfl

/- ===================== C8 : connect, 28-minute timeout ================== -/

/-- IMAP_PROTOCOL_TIMEOUT from connection.rs, in seconds (60 * 28). -/
def imapProtocolTimeout : Nat := 60 * 28

/-- The opening phase of ImapConnection::connect (connection.rs lines
608-633): when the shared online status is Ok but the time since the last
contact has reached the protocol timeout, the status is set to a
Timeout-kind error and the stream is replaced by the same error; then a
NOOP probe is attempted exactly when the (possibly replaced) stream is
still Ok.  Returns the new status, the new stream state and whether the
NOOP probe runs. -/
def connectPhase1 (status : Except MeliErrorM Unit) (elapsed : Nat)
    (streamSt : Except MeliErrorM Unit) :
    Except MeliErrorM Unit × Except MeliErrorM Unit × Bool :=
  let timeoutErr : MeliErrorM :=
    (meliErrNew (bytes "Connection timed out")).setKind .timeout
  let updated :=
    match status with
    | .ok _ =>
      if imapProtocolTimeout ≤ elapsed then
        ((Except.error timeoutErr : Except MeliErrorM Unit),
         (Except.error timeoutErr : Except MeliErrorM Unit))
      else (status, streamSt)
    | .error _ => (status, streamSt)
  (updated.1, updated.2, updated.2.toBool)

/-- C8: when the shared online status is Ok and at least 28 minutes have
elapsed since the last successful contact, connect sets the status to a
Timeout-kind error, replaces the existing stream by an error, and performs
no NOOP probe on it (so a fresh stream is opened instead). -/
theorem connect_protocol_timeout (elapsed : Nat)
    (streamSt : Except MeliErrorM Unit)
    (h : imapProtocolTimeout ≤ elapsed) :
    connectPhase1 (.ok ()) elapsed streamSt =
      (.error ((meliErrNew (bytes "Connection timed out")).setKind .timeout),
       .error ((meliErrNew (bytes "Connection timed out")).setKind .timeout),
       false) := by
  unfold connectPhase1
  simp [h, Except.toBool]

/-- C8 witness: the timeout branch evaluated at exactly 28 minutes with a
live stream. -/
theorem connect_protocol_timeout_witness :
    connectPhase1 (.ok ()) 1680 (.ok ()) =
      (.error ((meliErrNew (bytes "Connection timed out")).setKind .timeout),
       .error ((meliErrNew (bytes "Connection timed out")).setKind .timeout),
       false) :=
  connect_protocol_timeout 1680 (.ok ()) (by decide)

/- ===================== C9 : unselect ==================================== -/

/-- MailboxSelection from connection.rs; mailbox hashes are modelled as
naturals. -/
inductive MailboxSelectionM where
  | none
  | select (h : Nat)
  | examine (h : Nat)
deriving DecidableEq

/-- The two RequiredResponses values consumed by unselect, a projection of
the bitset from the imap protocol parser (not under src/): the empty set
and the NO_REQUIRED tolerance bit. -/
inductive RequiredResponsesM where
  | empty
  | noRequired
deriving DecidableEq

/-- One command round of unselect: the command bytes sent and the
RequiredResponses tolerance used to read its reply. -/
structure UnselectCmd where
  cmd : List Char
  required : RequiredResponsesM
deriving DecidableEq

/-- ImapConnection::unselect (connection.rs lines 889-926) on the success
path: the current mailbox selection is taken (leaving None); for Select or
Examine, UNSELECT is sent when the capability is advertised
(case-insensitively), otherwise SELECT "blurdybloop" is sent and its reply
read with NO_REQUIRED tolerance; for None no command is sent.  Returns the
commands sent and the selection left behind. -/
def unselectRun (caps : List (List Char)) (sel : MailboxSelectionM) :
    List UnselectCmd × MailboxSelectionM :=
  let taken := sel
  let selAfter := MailboxSelectionM.none
  match taken with
  | .examine _ | .select _ =>
    if caps.any (fun cap => eqIgnoreAsciiCase cap (bytes "UNSELECT")) then
      ([⟨bytes "UNSELECT", .empty⟩], selAfter)
    else
      ([⟨bytes "SELECT \x22blurdybloop\x22", .noRequired⟩], selAfter)
  | .none => ([], selAfter)

/-- C9: unselect sends UNSELECT when the capability is advertised, else
SELECT "blurdybloop" read with NO_REQUIRED tolerance, sends nothing when
no mailbox is selected, and always leaves the selection at None. -/
theorem unselect_behaviour (caps : List (List Char)) (sel : MailboxSelectionM)
    (hsel : sel ≠ MailboxSelectionM.none) :
    ((caps.any fun cap => eqIgnoreAsciiCase cap (bytes "UNSELECT")) = true →
      (unselectRun caps sel).1 = [⟨bytes "UNSELECT", .empty⟩]) ∧
    ((caps.any fun cap => eqIgnoreAsciiCase cap (bytes "UNSELECT")) = false →
      (unselectRun caps sel).1
        = [⟨bytes "SELECT \x22blurdybloop\x22", .noRequired⟩]) ∧
    (∀ caps2, (unselectRun caps2 MailboxSelectionM.none).1 = []) ∧
    (∀ caps2 sel2, (unselectRun caps2 sel2).2 = MailboxSelectionM.none) := by
  refine ⟨?_, ?_, ?_, ?_⟩
  · intro hcap
    cases sel with
    | none => exact absurd rfl hsel
    | select h => simp [unselectRun, hcap]
    | examine h => simp [unselectRun, hcap]
  · intro hcap
    cases sel with
    | none => exact absurd rfl hsel
    | select h => simp [unselectRun, hcap]
    | examine h => simp [unselectRun, hcap]
  · intro caps2; rfl
  · intro caps2 sel2
    cases sel2 with
    | none => rfl
    | select h =>
      unfold unselectRun
      cases caps2.any (fun cap => eqIgnoreAsciiCase cap (bytes "UNSELECT")) <;> rfl
    | examine h =>
      unfold unselectRun
      cases caps2.any (fun cap => eqIgnoreAsciiCase cap (bytes "UNSELECT")) <;> rfl

/-- C9 witness: unselect evaluated with an advertised lowercase unselect
capability and a selected mailbox. -/
theorem unselect_behaviour_witness :
    (([bytes "unselect"].any fun cap =>
        eqIgnoreAsciiCase cap (bytes "UNSELECT")) = true →
      (unselectRun [bytes "unselect"] (MailboxSelectionM.select 7)).1
        = [⟨bytes "UNSELECT", .empty⟩]) ∧
    (([bytes "unselect"].any fun cap =>
        eqIgnoreAsciiCase cap (bytes "UNSELECT")) = false →
      (unselectRun [bytes "unselect"] (MailboxSelectionM.select 7)).1
        = [⟨bytes "SELECT \x22blurdybloop\x22", .noRequired⟩]) ∧
    (∀ caps2, (unselectRun caps2 MailboxSelectionM.none).1 = []) ∧
    (∀ caps2 sel2, (unselectRun caps2 sel2).2 = MailboxSelectionM.none) :=
  unselect_behaviour [bytes "unselect"] (MailboxSelectionM.select 7) (by decide)

/- ===================== C3 : stream tags ================================= -/

/-- ImapProtocol from connection.rs: IMAP carries the extension-use flags
(condstore, idle, deflate, oauth2), ManageSieve carries nothing. -/
inductive ImapProtocolM where
  | imap (condstore idle deflate oauth2 : Bool)
  | manageSieve
deriving DecidableEq

/-- Whitespace test used by the byte trim helper. -/
def isWsB (c : Char) : Bool :=
  c == SP || c == Char.ofNat 9 || c == CR || c == LF

/-- Byte-slice trim (leading and trailing ASCII whitespace), as
`command.trim()` in ImapStream::send_command. -/
def trimBytes (l : List Char) : List Char :=
  ((l.dropWhile isWsB).reverse.dropWhile isWsB).reverse

/-- The observable state of an ImapStream: its command counter and the
bytes written to the transport so far. -/
structure ImapStreamM where
  cmdId : Nat
  written : List Char
  protocol : ImapProtocolM
deriving DecidableEq

/-- The tag bytes for command number n followed by one space: M{n}' '. -/
def mTag (n : Nat) : List Char := bytes "M" ++ bytes (Nat.repr n) ++ [SP]

/-- A fresh stream as built by ImapStream::new_connection: cmd_id starts at
1 and nothing has been written yet. -/
def mkImapStream (protocol : ImapProtocolM) : ImapStreamM :=
  ⟨1, [], protocol⟩

/-- ImapStream::send_command (connection.rs lines 508-549): for the IMAP
protocol it writes "M", the current cmd_id and a space, increments cmd_id,
then writes the trimmed command and CRLF and flushes; for ManageSieve no
tag is written and cmd_id is unchanged. -/
def sendCommandS (st : ImapStreamM) (command : List Char) : ImapStreamM :=
  match st.protocol with
  | .imap _ _ _ _ =>
    { st with
        cmdId := st.cmdId + 1,
        written := st.written ++ mTag st.cmdId ++ trimBytes command ++ crlf }
  | .manageSieve =>
    { st with written := st.written ++ trimBytes command ++ crlf }

/-- ImapStream::read_response (connection.rs lines 444-451): for the IMAP
protocol it reads lines with termination token "M{cmd_id - 1} ", the tag of
the last-sent command; for ManageSieve the token is empty. -/
def readResponseTermination (st : ImapStreamM) : List Char :=
  match st.protocol with
  | .imap _ _ _ _ => mTag (st.cmdId - 1)
  | .manageSieve => []

/-- Runs a sequence of send_command calls, returning the final stream and
the counter values used for the successive tags. -/
def runCommandsS : ImapStreamM → List (List Char) → ImapStreamM × List Nat
  | st, [] => (st, [])
  | st, c :: cs =>
    let st2 := sendCommandS st c
    let rest := runCommandsS st2 cs
    (rest.1, st.cmdId :: rest.2)

theorem sendCommandS_imap (st : ImapStreamM) (c i d o : Bool)
    (hp : st.protocol = .imap c i d o) (command : List Char) :
    sendCommandS st command =
      ⟨st.cmdId + 1,
       st.written ++ mTag st.cmdId ++ trimBytes command ++ crlf,
       st.protocol⟩ := by
  unfold sendCommandS
  rw [hp]

theorem runCommandsS_imap_tags (c i d o : Bool) :
    ∀ (cs : List (List Char)) (st : ImapStreamM),
      st.protocol = .imap c i d o →
      (runCommandsS st cs).2 = List.range' st.cmdId cs.length := by
  intro cs
  induction cs with
  | nil => intro st hp; rfl
  | cons c0 cs ih =>
    intro st hp
    have hsend := sendCommandS_imap st c i d o hp c0
    have hp2 : (sendCommandS st c0).protocol = .imap c i d o := by
      rw [hsend]; exact hp
    have hid : (sendCommandS st c0).cmdId = st.cmdId + 1 := by
      rw [hsend]
    unfold runCommandsS
    simp only []
    rw [ih (sendCommandS st c0) hp2, hid, List.length_cons, List.range'_succ]

theorem chainLt_range' : ∀ (n s : Nat), List.Chain' (· < ·) (List.range' s n) := by
  intro n
  induction n with
  | zero => intro s; simp
  | succ m ih =>
    intro s
    rw [List.range'_succ]
    cases m with
    | zero => simp
    | succ k =>
      rw [List.range'_succ]
      exact List.Chain'.cons (Nat.lt_succ_self s) (by
        have := ih (s + 1)
        rwa [List.range'_succ] at this)

/-- C3: a fresh stream starts with cmd_id 1; on an IMAP-protocol stream
every send_command writes the tag bytes M{cmd_id}' ' built from the current
counter and increments the counter by exactly one, so the counter values
tagged over any command sequence are List.range' cmd_id n, which is
strictly increasing; and read_response waits for a line carrying the tag
M{cmd_id - 1}' ' of the last-sent command. -/
theorem imap_tag_monotonicity (st : ImapStreamM) (c i d o : Bool)
    (hp : st.protocol = .imap c i d o) :
    (∀ p, (mkImapStream p).cmdId = 1) ∧
    (∀ command, sendCommandS st command =
      ⟨st.cmdId + 1,
       st.written ++ mTag st.cmdId ++ trimBytes command ++ crlf,
       st.protocol⟩) ∧
    (∀ cs, (runCommandsS st cs).2 = List.range' st.cmdId cs.length) ∧
    (∀ cs, List.Chain' (· < ·) (runCommandsS st cs).2) ∧
    readResponseTermination st = mTag (st.cmdId - 1) := by
  refine ⟨fun p => rfl, ?_, ?_, ?_, ?_⟩
  · intro command
    exact sendCommandS_imap st c i d o hp command
  · intro cs
    exact runCommandsS_imap_tags c i d o cs st hp
  · intro cs
    rw [runCommandsS_imap_tags c i d o cs st hp]
    exact chainLt_range' cs.length st.cmdId
  · unfold readResponseTermination
    rw [hp]

/-- C3 witness: the tag properties evaluated on a fresh IMAP stream with a
two-command sequence. -/
theorem imap_tag_monotonicity_witness :
    (∀ p, (mkImapStream p).cmdId = 1) ∧
    (∀ command,
      sendCommandS (mkImapStream (.imap true true true false)) command =
      ⟨(mkImapStream (.imap true true true false)).cmdId + 1,
       (mkImapStream (.imap true true true false)).written
         ++ mTag (mkImapStream (.imap true true true false)).cmdId
         ++ trimBytes command ++ crlf,
       (mkImapStream (.imap true true true false)).protocol⟩) ∧
    (∀ cs, (runCommandsS (mkImapStream (.imap true true true false)) cs).2
      = List.range' (mkImapStream (.imap true true true false)).cmdId cs.length) ∧
    (∀ cs, List.Chain' (· < ·)
      (runCommandsS (mkImapStream (.imap true true true false)) cs).2) ∧
    readResponseTermination (mkImapStream (.imap true true true false))
      = mTag ((mkImapStream (.imap true true true false)).cmdId - 1) :=
  imap_tag_monotonicity (mkImapStream (.imap true true true false))
    true true true false rfl

/- ===================== Wire framer : read_lines ========================= -/

/-- The "* BYE" token checked inside ImapStream::read_lines. -/
def byeTok : List Char := bytes "* BYE"

/-- Index of the last occurrence of CRLF in a byte list, as the `rfind`
call of read_lines. -/
def rcrlf : List Char → Option Nat
  | [] => Option.none
  | c :: t =>
    match rcrlf t with
    | some i => some (i + 1)
    | Option.none => if isPre crlf (c :: t) then some 0 else Option.none

/-- Result of ImapStream::read_lines: the filled buffer, or the
"Disconnected" error raised on a BYE greeting.  Transport-level read
errors and timeouts are outside this embedding, which feeds the reads as a
list of chunks. -/
inductive ReadLinesResult where
  | ok (buf : List Char)
  | disconnected
deriving DecidableEq

/-- One loop iteration either returns from read_lines or continues with the
grown buffer and the updated last_line_idx cursor. -/
inductive StepOut where
  | done (r : ReadLinesResult)
  | cont (ret : List Char) (idx : Nat)
deriving DecidableEq

/-- The termination test at the bottom of a read_lines iteration
(connection.rs lines 477-489), after the last_line_idx/pos adjustment: when
the last CRLF sits at the very end of the unscanned region, a nonempty
termination token that starts the most recent line ends the loop (stripping
the line from the buffer unless keep_termination is set), an empty token
ends it unconditionally; otherwise the cursor advances past the CRLF. -/
def stepTermCheck (term : List Char) (keep : Bool) (ret2 : List Char)
    (idx2 pos2 : Nat) : StepOut :=
  let region2 := ret2.drop idx2
  if pos2 + 2 = region2.length then
    if !term.isEmpty && isPre term region2 then
      .done (.ok (if keep then ret2 else ret2.take idx2))
    else if term.isEmpty then .done (.ok ret2)
    else .cont ret2 (idx2 + pos2 + 2)
  else .cont ret2 (idx2 + pos2 + 2)

/-- One iteration of the ImapStream::read_lines loop (connection.rs lines
462-496) on one transport read: an empty read (EOF) ends the loop with the
buffer so far; otherwise the chunk is appended, and if the unscanned
region `ret[last_line_idx..]` contains a CRLF the iteration fails with
Disconnected when that region starts with "* BYE", else it moves the
cursor to the start of the most recent complete line (searching for the
CRLF before the last one) and runs the termination test. -/
def readStep (term : List Char) (keep : Bool) (ret : List Char) (idx : Nat)
    (c : List Char) : StepOut :=
  if c.isEmpty then .done (.ok ret)
  else
    let ret2 := ret ++ c
    let region := ret2.drop idx
    match rcrlf region with
    | Option.none => .cont ret2 idx
    | some pos =>
      if isPre byeTok region then .done .disconnected
      else
        match rcrlf (region.take pos) with
        | some prev =>
          stepTermCheck term keep ret2 (idx + prev + 2) (pos - (prev + 2))
        | Option.none => stepTermCheck term keep ret2 idx pos

/-- The read_lines loop over the successive transport reads; an exhausted
chunk list is the EOF read `Ok(0)`. -/
def readLinesLoop (term : List Char) (keep : Bool) :
    List (List Char) → List Char → Nat → ReadLinesResult
  | [], ret, _ => .ok ret
  | c :: rest, ret, idx =>
    match readStep term keep ret idx c with
    | .done r => r
    | .cont ret2 idx2 => readLinesLoop term keep rest ret2 idx2

/-- ImapStream::read_lines(ret, termination_string, keep_termination) with
the transport reads given as chunks: the buffer is cleared and
last_line_idx starts at 0. -/
def readLines (term : List Char) (keep : Bool)
    (chunks : List (List Char)) : ReadLinesResult :=
  readLinesLoop term keep chunks [] 0

/-- Concatenation of the transport chunks. -/
def concatChunks : List (List Char) → List Char
  | [] => []
  | c :: rest => c ++ concatChunks rest

/-- Concatenation of CRLF-terminated lines from the given line bodies. -/
def linesJoin : List (List Char) → List Char
  | [] => []
  | b :: bs => b ++ crlf ++ linesJoin bs

/-- A clean line body: no carriage return and no line feed inside. -/
def cleanB (l : List Char) : Bool :=
  l.all fun c => !(c == CR) && !(c == LF)

/- ===================== C4 : BYE handling ================================ -/

/-- Parsed tagged replies, the ImapResponse shape consumed by
ImapConnection::read_response; the response parser itself lives outside
src/. -/
inductive ImapResponseM where
  | ok (code : List Char)
  | no (code : List Char)
  | bad (code : List Char)
  | preauth (code : List Char)
  | bye (code : List Char)
deriving DecidableEq

/-- Modelled from the spec: the conversion `r.into()` of a parsed reply
into a Result is in the protocol parser, not under src/; per spec section
7, BYE always terminates the connection and an unexpected NO or any BAD is
surfaced as an error, while Ok (and the Preauth greeting) succeed. -/
def respToResult : ImapResponseM → Except MeliErrorM Unit
  | .ok _ => .ok ()
  | .preauth _ => .ok ()
  | .no code => .error (meliErrNew (bytes "NO " ++ code))
  | .bad code => .error (meliErrNew (bytes "BAD " ++ code))
  | .bye code => .error (meliErrNew (bytes "Offline: received BYE: " ++ code))

/-- Observable outcome of the reply dispatch in
ImapConnection::read_response. -/
structure ConnReadOutcome where
  streamSt : Except MeliErrorM Unit
  ret : List Char
  result : Except MeliErrorM Unit
  reconnectAttempted : Bool

/-- The reply dispatch of ImapConnection::read_response (connection.rs
lines 726-793) for the IMAP protocol: a Bye reply replaces the stream by an
error, copies the raw response into the caller's buffer and returns the
reply as an error, with no reconnect attempt (no branch of read_response
invokes connect); a NO reply expected via NO_REQUIRED falls through to the
untagged-line loop, an unexpected NO or any BAD emits a notice and returns
the error.  `processedLines` stands for the buffer the untagged-line loop
produces (its parser is outside src/). -/
def connReadDispatch (r : ImapResponseM) (required : RequiredResponsesM)
    (response : List Char) (processedLines : List Char) : ConnReadOutcome :=
  match r with
  | .bye code =>
    ⟨.error (meliErrNew (bytes "Offline: received BYE: " ++ code)),
     response, respToResult (.bye code), false⟩
  | .no code =>
    match required with
    | .noRequired => ⟨.ok (), processedLines, .ok (), false⟩
    | .empty => ⟨.ok (), response, respToResult (.no code), false⟩
  | .bad code => ⟨.ok (), response, respToResult (.bad code), false⟩
  | .ok _ => ⟨.ok (), processedLines, .ok (), false⟩
  | .preauth _ => ⟨.ok (), processedLines, .ok (), false⟩

/-- C4 counterexample: on a transport yielding the bytes "* BYE" with no
CRLF and then EOF, the read buffer region begins with "* BYE" and yet
read_lines returns Ok with that buffer instead of failing: the Disconnect
check only fires once the region also contains a complete CRLF line. -/
theorem bye_no_crlf_counterexample :
    readLines [] true [byeTok] = ReadLinesResult.ok byeTok ∧
      isPre byeTok byeTok = true ∧
      ReadLinesResult.ok byeTok ≠ ReadLinesResult.disconnected := by
  refine ⟨?_, ?_, ?_⟩ <;> decide

/-- C4 amended: whenever the unscanned read-buffer region begins with
"* BYE" and contains a complete CRLF-terminated line, read_lines fails
immediately with the Disconnected error (here for a fresh buffer and any
remaining transport input); and a read_response whose parsed reply is BYE
sets the connection's stream to an error state and returns the error
without attempting a reconnect. -/
theorem bye_disconnect (c : List Char) (rest : List (List Char))
    (term : List Char) (keep : Bool)
    (hbye : isPre byeTok c = true) (hcrlf : (rcrlf c).isSome = true) :
    readLines term keep (c :: rest) = ReadLinesResult.disconnected ∧
    (∀ code required response processed,
      (connReadDispatch (.bye code) required response processed).streamSt
          = .error (meliErrNew (bytes "Offline: received BYE: " ++ code)) ∧
        (connReadDispatch (.bye code) required response processed).result
          = .error (meliErrNew (bytes "Offline: received BYE: " ++ code)) ∧
        ((connReadDispatch (.bye code) required response
          processed).reconnectAttempted = false)) := by
  constructor
  · have hne : c.isEmpty = false := by
      cases c with
      | nil => simp [isPre, byeTok, bytes] at hbye
      | cons a t => rfl
    obtain ⟨pos, hpos⟩ : ∃ pos, rcrlf c = some pos := by
      cases hr : rcrlf c with
      | none => rw [hr] at hcrlf; simp [Option.isSome] at hcrlf
      | some p => exact ⟨p, rfl⟩
    unfold readLines readLinesLoop readStep
    rw [hne]
    simp only [Bool.false_eq_true, if_false, List.nil_append, List.drop_zero,
      hpos, hbye, if_true]
  · intro code required response processed
    exact ⟨rfl, rfl, rfl⟩

/-- C4 witness: the amended statement at the single read "* BYE"CRLF. -/
theorem bye_disconnect_witness :
    readLines (bytes "M1 ") true [byeTok ++ crlf]
        = ReadLinesResult.disconnected ∧
    (∀ code required response processed,
      (connReadDispatch (.bye code) required response processed).streamSt
          = .error (meliErrNew (bytes "Offline: received BYE: " ++ code)) ∧
        (connReadDispatch (.bye code) required response processed).result
          = .error (meliErrNew (bytes "Offline: received BYE: " ++ code)) ∧
        ((connReadDispatch (.bye code) required response
          processed).reconnectAttempted = false)) :=
  bye_disconnect (byeTok ++ crlf) [] (bytes "M1 ") true
    (by decide) (by decide)

/- ===================== C2 : framing counterexample ====================== -/

/-- C2 counterexample: the transport input is the single complete
CRLF-terminated line "* BYE"CRLF and the termination token is empty, so by
the claim read_lines must return Ok with the full buffer (condition (b) of
the claim holds and EOF follows), yet it returns the Disconnected error. -/
theorem read_lines_ok_counterexample :
    readLines [] true [byeTok ++ crlf] = ReadLinesResult.disconnected ∧
      ReadLinesResult.disconnected ≠ ReadLinesResult.ok (byeTok ++ crlf) ∧
      isPre crlf ((byeTok ++ crlf).drop 5) = true := by
  refine ⟨?_, ?_, ?_⟩ <;> decide

/- ============ Supporting lemmas for the framing round trip ============== -/

theorem dropLenPlus (X Y : List Char) (k : Nat) :
    (X ++ Y).drop (X.length + k) = Y.drop k := by
  induction X with
  | nil => simp
  | cons c X2 ih =>
    have harith : X2.length + 1 + k = (X2.length + k) + 1 := by omega
    simp only [List.cons_append, List.length_cons, harith, List.drop_succ_cons]
    exact ih

theorem dropLen (X Y : List Char) : (X ++ Y).drop X.length = Y := by
  have h := dropLenPlus X Y 0
  simp only [Nat.add_zero, List.drop_zero] at h
  exact h

theorem takeLen (X Y : List Char) : (X ++ Y).take X.length = X := by
  induction X with
  | nil => simp
  | cons c X2 ih => simp [ih]

theorem cleanB_not_cr_lf (l : List Char) (h : cleanB l = true) :
    CR ∉ l ∧ LF ∉ l := by
  rw [cleanB, List.all_eq_true] at h
  constructor
  · intro hmem
    have := h CR hmem
    simp at this
  · intro hmem
    have := h LF hmem
    simp at this

theorem isPre_lf_false (t : List Char) (h : LF ∉ t) : isPre [LF] t = false := by
  cases t with
  | nil => rfl
  | cons d t2 =>
    have hd : d ≠ LF := fun hdlf => h (hdlf ▸ List.mem_cons_self d t2)
    simp [isPre, Ne.symm hd]

theorem rcrlf_eq_none_of_not_lf (hay : List Char) (h : LF ∉ hay) :
    rcrlf hay = Option.none := by
  induction hay with
  | nil => rfl
  | cons c t ih =>
    have ht : LF ∉ t := fun hm => h (List.mem_cons_of_mem c hm)
    have hpre : isPre crlf (c :: t) = false := by
      show (CR == c && isPre [LF] t) = false
      rw [isPre_lf_false t ht]
      simp
    unfold rcrlf
    rw [ih ht, hpre]
    simp

theorem rcrlf_append_crlf (A p : List Char) (h : LF ∉ p) :
    rcrlf (A ++ CR :: LF :: p) = some A.length := by
  induction A with
  | nil =>
    have hp : rcrlf p = Option.none := rcrlf_eq_none_of_not_lf p h
    have hlfp : rcrlf (LF :: p) = Option.none := by
      unfold rcrlf
      rw [hp]
      have : isPre crlf (LF :: p) = false := by
        show (CR == LF && isPre [LF] p) = false
        have hne : (CR == LF) = false := by decide
        rw [hne]
        simp
      rw [this]
      simp
    show rcrlf (CR :: LF :: p) = some 0
    unfold rcrlf
    rw [hlfp]
    have : isPre crlf (CR :: LF :: p) = true := by
      show (CR == CR && isPre [LF] (LF :: p)) = true
      show (CR == CR && (LF == LF && isPre [] p)) = true
      simp [isPre]
    rw [this]
    simp
  | cons c A2 ih =>
    show rcrlf (c :: (A2 ++ CR :: LF :: p)) = some (A2.length + 1)
    unfold rcrlf
    rw [ih]

theorem isPre_through_cr (t : List Char) (hcr : CR ∉ t) :
    ∀ (b rest : List Char), isPre t (b ++ CR :: rest) = isPre t b := by
  induction t with
  | nil => intro b rest; cases b <;> rfl
  | cons c t2 ih =>
    intro b rest
    have hc : c ≠ CR := fun h => hcr (h ▸ List.mem_cons_self c t2)
    have ht2 : CR ∉ t2 := fun hm => hcr (List.mem_cons_of_mem c hm)
    cases b with
    | nil =>
      show (c == CR && isPre t2 rest) = isPre (c :: t2) []
      simp [isPre, hc]
    | cons x b2 =>
      show (c == x && isPre t2 (b2 ++ CR :: rest)) = (c == x && isPre t2 b2)
      rw [ih ht2 b2 rest]

theorem linesJoin_append (X Y : List (List Char)) :
    linesJoin (X ++ Y) = linesJoin X ++ linesJoin Y := by
  induction X with
  | nil => rfl
  | cons b X2 ih =>
    show b ++ crlf ++ linesJoin (X2 ++ Y) = b ++ crlf ++ linesJoin X2 ++ linesJoin Y
    rw [ih]
    simp [List.append_assoc]

theorem lf_mem_linesJoin (b : List Char) (bs : List (List Char)) :
    LF ∈ linesJoin (b :: bs) := by
  show LF ∈ b ++ crlf ++ linesJoin bs
  have : LF ∈ crlf := by decide
  simp [List.mem_append, this]

theorem appSingInj {α : Type} {X W : List α} {a b : α}
    (h : X ++ [a] = W ++ [b]) : X = W ∧ a = b := by
  have hrev := congrArg List.reverse h
  simp only [List.reverse_append, List.reverse_cons, List.reverse_nil,
    List.nil_append, List.singleton_append] at hrev
  injection hrev with h1 h2
  exact ⟨by simpa using congrArg List.reverse h2, h1⟩

theorem eqNilOrSing {α : Type} (l : List α) : l = [] ∨ ∃ L a, l = L ++ [a] := by
  induction l with
  | nil => exact Or.inl rfl
  | cons x xs ih =>
    rcases ih with rfl | ⟨L, a, rfl⟩
    · exact Or.inr ⟨[], x, rfl⟩
    · exact Or.inr ⟨x :: L, a, rfl⟩

theorem lf_not_mem_line_cr (b : List Char) (hb : cleanB b = true) :
    LF ∉ b ++ [CR] := by
  intro hmem
  rcases List.mem_append.mp hmem with hmem1 | hmem2
  · exact (cleanB_not_cr_lf b hb).2 hmem1
  · have : LF = CR := List.mem_singleton.mp hmem2
    exact absurd this (by decide)

theorem splitRegion :
    ∀ (bs2 : List (List Char)) (region tail : List Char),
      (∀ b ∈ bs2, cleanB b = true) →
      region ++ tail = linesJoin bs2 →
      (LF ∉ region) ∨
      (∃ mid0 bl bs3 p, bs2 = mid0 ++ [bl] ++ bs3 ∧
        region = linesJoin mid0 ++ (bl ++ (crlf ++ p)) ∧ (LF ∉ p) ∧
        p ++ tail = linesJoin bs3) := by
  intro bs2
  induction bs2 with
  | nil =>
    intro region tail hclean heq
    have : region = [] := by
      have h0 : region ++ tail = [] := heq
      exact (List.append_eq_nil.mp h0).1
    left
    rw [this]
    exact List.not_mem_nil LF
  | cons b rest ih =>
    intro region tail hclean heq
    have hb : cleanB b = true := hclean b (List.mem_cons_self b rest)
    have hrest : ∀ x ∈ rest, cleanB x = true :=
      fun x hx => hclean x (List.mem_cons_of_mem b hx)
    have heq2 : region ++ tail = (b ++ [CR]) ++ (LF :: linesJoin rest) := by
      rw [heq]
      simp only [linesJoin]
      simp [crlf, List.append_assoc]
    rcases List.append_eq_append_iff.mp heq2 with ⟨a2, h1, h2⟩ | ⟨c2, h1, h2⟩
    · left
      intro hmem
      have : LF ∈ region ++ a2 := List.mem_append.mpr (Or.inl hmem)
      rw [← h1] at this
      exact lf_not_mem_line_cr b hb this
    · cases c2 with
      | nil =>
        left
        rw [List.append_nil] at h1
        rw [h1]
        exact lf_not_mem_line_cr b hb
      | cons d c3 =>
        have hd : d = LF ∧ linesJoin rest = c3 ++ tail := by
          have h2s := h2.symm
          rw [List.cons_append] at h2s
          injection h2s with hx hy
          exact ⟨hx, hy.symm⟩
        rcases hd with ⟨rfl, hJ⟩
        rcases ih c3 tail hrest hJ.symm with hLF | ⟨mid0, bl, bs3, p, hbs, hreg, hp, hpt⟩
        · right
          refine ⟨[], b, rest, c3, rfl, ?_, hLF, hJ.symm⟩
          rw [h1]
          simp only [linesJoin]
          simp [crlf, List.append_assoc]
        · right
          refine ⟨b :: mid0, bl, bs3, p, ?_, ?_, hp, hpt⟩
          · rw [List.cons_append, List.cons_append, ← hbs]
          · rw [h1, hreg]
            simp only [linesJoin]
            simp [crlf, List.append_assoc]

theorem linesJoin_sing (b : List Char) : linesJoin [b] = b ++ crlf := by
  show b ++ crlf ++ linesJoin [] = b ++ crlf
  simp [linesJoin]

theorem linesJoin_concat (X : List (List Char)) (b : List Char) :
    linesJoin (X ++ [b]) = linesJoin X ++ (b ++ crlf) := by
  rw [linesJoin_append, linesJoin_sing]

theorem lf_mem_linesJoin_ne (bs : List (List Char)) (h : bs ≠ []) :
    LF ∈ linesJoin bs := by
  cases bs with
  | nil => exact absurd rfl h
  | cons b rest => exact lf_mem_linesJoin b rest

theorem readStep_no_lf (term : List Char) (keep : Bool) (X pt c : List Char)
    (hc : c.isEmpty = false) (hLF : LF ∉ pt ++ c) :
    readStep term keep (X ++ pt) X.length c = .cont ((X ++ pt) ++ c) X.length := by
  have hdrop : ((X ++ pt) ++ c).drop X.length = pt ++ c := by
    rw [List.append_assoc]
    exact dropLen X (pt ++ c)
  unfold readStep
  simp only [hc, Bool.false_eq_true, if_false, hdrop,
    rcrlf_eq_none_of_not_lf (pt ++ c) hLF]

theorem stepTermCheck_eval (term : List Char) (keep : Bool)
    (Y bl p : List Char) (htcr : CR ∉ term) (htne : term.isEmpty = false) :
    stepTermCheck term keep (Y ++ (bl ++ (crlf ++ p))) Y.length bl.length =
      if p.isEmpty then
        (if isPre term bl then
          StepOut.done (.ok (if keep then Y ++ (bl ++ (crlf ++ p))
            else (Y ++ (bl ++ (crlf ++ p))).take Y.length))
        else StepOut.cont (Y ++ (bl ++ (crlf ++ p)))
          (Y.length + bl.length + 2))
      else StepOut.cont (Y ++ (bl ++ (crlf ++ p)))
        (Y.length + bl.length + 2) := by
  have hdrop : (Y ++ (bl ++ (crlf ++ p))).drop Y.length = bl ++ (crlf ++ p) :=
    dropLen _ _
  unfold stepTermCheck
  simp only [hdrop]
  by_cases hpe : p.isEmpty = true
  · have hp0 : p = [] := by
      cases p with
      | nil => rfl
      | cons x xs => simp [List.isEmpty] at hpe
    subst hp0
    have hlen : bl.length + 2 = (bl ++ (crlf ++ ([] : List Char))).length := by
      simp [crlf]
    have hpre : isPre term (bl ++ (crlf ++ ([] : List Char))) = isPre term bl := by
      have hsh : bl ++ (crlf ++ ([] : List Char)) = bl ++ CR :: [LF] := by
        simp [crlf]
      rw [hsh, isPre_through_cr term htcr bl [LF]]
    rw [if_pos hlen, htne, hpre]
    by_cases hm : isPre term bl = true
    · simp [hm]
    · have hm2 : isPre term bl = false := by
        cases hval : isPre term bl with
        | false => rfl
        | true => exact absurd hval hm
      simp [hm2, htne]
  · have hp1 : p ≠ [] := by
      intro h
      subst h
      exact hpe rfl
    have hppos : 0 < p.length := List.length_pos.mpr hp1
    have hlen : ¬(bl.length + 2 = (bl ++ (crlf ++ p)).length) := by
      simp only [List.length_append, crlf, List.length_cons, List.length_nil]
      omega
    rw [if_neg hlen]
    have hpe2 : p.isEmpty = false := by
      cases hval : p.isEmpty with
      | false => rfl
      | true => exact absurd hval hpe
    simp [hpe2]

theorem readStep_complete (term : List Char) (keep : Bool)
    (X : List Char) (mid0 : List (List Char)) (bl p pt c : List Char)
    (hc : c.isEmpty = false)
    (hregion : pt ++ c = linesJoin mid0 ++ (bl ++ (crlf ++ p)))
    (hp : LF ∉ p)
    (hclean_bl : cleanB bl = true)
    (hbye_mid : ∀ b ∈ mid0, isPre byeTok b = false)
    (hbye_bl : isPre byeTok bl = false)
    (htcr : CR ∉ term)
    (htne : term.isEmpty = false) :
    readStep term keep (X ++ pt) X.length c =
      if p.isEmpty then
        (if isPre term bl then
          StepOut.done (.ok (if keep then (X ++ pt) ++ c
            else ((X ++ pt) ++ c).take (X ++ linesJoin mid0).length))
        else StepOut.cont ((X ++ pt) ++ c)
          ((X ++ linesJoin mid0).length + bl.length + 2))
      else StepOut.cont ((X ++ pt) ++ c)
        ((X ++ linesJoin mid0).length + bl.length + 2) := by
  have hdrop : ((X ++ pt) ++ c).drop X.length = pt ++ c := by
    rw [List.append_assoc]
    exact dropLen X (pt ++ c)
  have hregion2 : pt ++ c = (linesJoin mid0 ++ bl) ++ (CR :: LF :: p) := by
    rw [hregion]
    simp [crlf, List.append_assoc]
  have hLFbl : LF ∉ bl := (cleanB_not_cr_lf bl hclean_bl).2
  have hrc : rcrlf (pt ++ c) = some (linesJoin mid0 ++ bl).length := by
    rw [hregion2]
    exact rcrlf_append_crlf _ p hp
  have hbyeR : isPre byeTok (pt ++ c) = false := by
    have hbcr : CR ∉ byeTok := by decide
    cases mid0 with
    | nil =>
      have hsh : pt ++ c = bl ++ CR :: (LF :: p) := by
        rw [hregion]
        simp [linesJoin, crlf, List.append_assoc]
      rw [hsh, isPre_through_cr byeTok hbcr bl (LF :: p)]
      exact hbye_bl
    | cons b0 mid0t =>
      have hb0 : isPre byeTok b0 = false := hbye_mid b0 (List.mem_cons_self _ _)
      have hsh : pt ++ c
          = b0 ++ CR :: (LF :: (linesJoin mid0t ++ (bl ++ (crlf ++ p)))) := by
        rw [hregion]
        simp [linesJoin, crlf, List.append_assoc]
      rw [hsh, isPre_through_cr byeTok hbcr b0 _]
      exact hb0
  have htake : (pt ++ c).take (linesJoin mid0 ++ bl).length
      = linesJoin mid0 ++ bl := by
    rw [hregion2]
    exact takeLen _ _
  have hret2 : (X ++ pt) ++ c = (X ++ linesJoin mid0) ++ (bl ++ (crlf ++ p)) := by
    rw [List.append_assoc, hregion]
    simp [List.append_assoc]
  unfold readStep
  simp only [hc, Bool.false_eq_true, if_false, hdrop, hrc, hbyeR, htake]
  rcases eqNilOrSing mid0 with rfl | ⟨mid00, b9, rfl⟩
  · have hrcbl : rcrlf ((linesJoin ([] : List (List Char))) ++ bl)
        = Option.none := by
      show rcrlf ([] ++ bl) = Option.none
      rw [List.nil_append]
      exact rcrlf_eq_none_of_not_lf bl hLFbl
    rw [hrcbl]
    have hY : X.length = (X ++ linesJoin ([] : List (List Char))).length := by
      simp [linesJoin]
    have hpos : (linesJoin ([] : List (List Char)) ++ bl).length = bl.length := by
      simp [linesJoin]
    rw [hpos, hY, hret2]
    exact stepTermCheck_eval term keep (X ++ linesJoin ([] : List (List Char)))
      bl p htcr htne
  · have hjoin : linesJoin (mid00 ++ [b9]) ++ bl
        = (linesJoin mid00 ++ b9) ++ (CR :: LF :: bl) := by
      rw [linesJoin_concat]
      simp [crlf, List.append_assoc]
    have hrcprev : rcrlf (linesJoin (mid00 ++ [b9]) ++ bl)
        = some (linesJoin mid00 ++ b9).length := by
      rw [hjoin]
      exact rcrlf_append_crlf _ bl hLFbl
    simp only [hrcprev]
    have hlenmid : (linesJoin (mid00 ++ [b9])).length
        = (linesJoin mid00).length + b9.length + 2 := by
      rw [linesJoin_concat]
      simp [crlf]
      omega
    have hidx : X.length + (linesJoin mid00 ++ b9).length + 2
        = (X ++ linesJoin (mid00 ++ [b9])).length := by
      simp only [List.length_append, hlenmid]
      omega
    have hpos2 : (linesJoin (mid00 ++ [b9]) ++ bl).length
        - ((linesJoin mid00 ++ b9).length + 2) = bl.length := by
      simp only [List.length_append, hlenmid]
      omega
    rw [hidx, hpos2, hret2]
    exact stepTermCheck_eval term keep (X ++ linesJoin (mid00 ++ [b9]))
      bl p htcr htne

theorem readLoopOk (term : List Char) (keep : Bool) (lastB : List Char)
    (htne : term.isEmpty = false) (htcr : CR ∉ term)
    (hmatch : isPre term lastB = true) :
    ∀ (chunks bs1 front2 : List (List Char)) (pt : List Char),
      (∀ c ∈ chunks, c.isEmpty = false) →
      (∀ b ∈ front2 ++ [lastB], cleanB b = true) →
      (∀ b ∈ front2 ++ [lastB], isPre byeTok b = false) →
      (∀ b ∈ bs1 ++ front2, isPre term b = false) →
      LF ∉ pt →
      pt ++ concatChunks chunks = linesJoin (front2 ++ [lastB]) →
      readLinesLoop term keep chunks (linesJoin bs1 ++ pt) (linesJoin bs1).length
        = .ok (if keep then linesJoin (bs1 ++ (front2 ++ [lastB]))
               else linesJoin (bs1 ++ front2)) := by
  intro chunks
  induction chunks with
  | nil =>
    intro bs1 front2 pt hch hclean hbye htf hLF heq
    exfalso
    have hpt0 : pt = linesJoin (front2 ++ [lastB]) := by
      simpa [concatChunks] using heq
    have hne : front2 ++ [lastB] ≠ [] := by simp
    exact hLF (hpt0 ▸ lf_mem_linesJoin_ne _ hne)
  | cons c rest ih =>
    intro bs1 front2 pt hch hclean hbye htf hLF heq
    have hc : c.isEmpty = false := hch c (List.mem_cons_self _ _)
    have hchrest : ∀ x ∈ rest, x.isEmpty = false :=
      fun x hx => hch x (List.mem_cons_of_mem c hx)
    have heq2 : (pt ++ c) ++ concatChunks rest = linesJoin (front2 ++ [lastB]) := by
      rw [List.append_assoc]
      simpa [concatChunks] using heq
    rcases splitRegion (front2 ++ [lastB]) (pt ++ c) (concatChunks rest)
        hclean heq2 with hnoLF | ⟨mid0, bl, bs3, p, hbs, hreg, hp, hpt⟩
    · simp only [readLinesLoop,
        readStep_no_lf term keep (linesJoin bs1) pt c hc hnoLF]
      rw [List.append_assoc]
      exact ih bs1 front2 (pt ++ c) hchrest hclean hbye htf hnoLF heq2
    · have hmem_mid : ∀ b ∈ mid0, b ∈ front2 ++ [lastB] := by
        intro b hb
        rw [hbs]
        simp [hb]
      have hmem_bl : bl ∈ front2 ++ [lastB] := by
        rw [hbs]
        simp
      have hclean_bl := hclean bl hmem_bl
      have hbye_mid : ∀ b ∈ mid0, isPre byeTok b = false :=
        fun b hb => hbye b (hmem_mid b hb)
      have hbye_bl := hbye bl hmem_bl
      have hstep := readStep_complete term keep (linesJoin bs1) mid0 bl p pt c
        hc hreg hp hclean_bl hbye_mid hbye_bl htcr htne
      by_cases hfin : bs3 = []
      · subst hfin
        have hbs2 : front2 ++ [lastB] = mid0 ++ [bl] := by
          simpa using hbs
        rcases appSingInj hbs2 with ⟨hfront, hlb⟩
        have hptnil : p ++ concatChunks rest = [] := by
          simpa [linesJoin] using hpt
        have hp0 : p = [] := (List.append_eq_nil.mp hptnil).1
        subst hp0
        have hblmatch : isPre term bl = true := hlb ▸ hmatch
        have hstep2 : readStep term keep (linesJoin bs1 ++ pt)
            (linesJoin bs1).length c
            = .done (.ok (if keep then (linesJoin bs1 ++ pt) ++ c
              else ((linesJoin bs1 ++ pt) ++ c).take
                (linesJoin bs1 ++ linesJoin mid0).length)) := by
          rw [hstep]
          simp [hblmatch]
        simp only [readLinesLoop, hstep2]
        have htakeVal : ((linesJoin bs1 ++ pt) ++ c).take
            (linesJoin bs1 ++ linesJoin mid0).length
            = linesJoin (bs1 ++ front2) := by
          have h1 : (linesJoin bs1 ++ pt) ++ c
              = (linesJoin bs1 ++ linesJoin mid0) ++ (bl ++ (crlf ++ [])) := by
            rw [List.append_assoc, hreg]
            simp [List.append_assoc]
          rw [h1, takeLen, ← linesJoin_append, hfront]
        have hretFull : (linesJoin bs1 ++ pt) ++ c
            = linesJoin (bs1 ++ (front2 ++ [lastB])) := by
          rw [List.append_assoc, hreg, linesJoin_append, linesJoin_append,
            linesJoin_sing, hfront, hlb]
          simp [List.append_assoc]
        rw [htakeVal, hretFull]
      · rcases eqNilOrSing bs3 with rfl | ⟨bs3t, aB, rfl⟩
        · exact absurd rfl hfin
        · have hbs2 : front2 ++ [lastB] = (mid0 ++ [bl] ++ bs3t) ++ [aB] := by
            rw [hbs]
            simp [List.append_assoc]
          rcases appSingInj hbs2 with ⟨hfront, hlb⟩
          subst hlb
          have hblmem : bl ∈ bs1 ++ front2 := by
            rw [hfront]
            simp
          have hblterm : isPre term bl = false := htf bl hblmem
          have hstep2 : readStep term keep (linesJoin bs1 ++ pt)
              (linesJoin bs1).length c
              = .cont ((linesJoin bs1 ++ pt) ++ c)
                ((linesJoin bs1 ++ linesJoin mid0).length + bl.length + 2) := by
            rw [hstep]
            by_cases hpe : p.isEmpty <;> simp [hpe, hblterm]
          simp only [readLinesLoop, hstep2]
          have hretEq : (linesJoin bs1 ++ pt) ++ c
              = linesJoin (bs1 ++ (mid0 ++ [bl])) ++ p := by
            rw [List.append_assoc, hreg, linesJoin_append, linesJoin_concat]
            simp [List.append_assoc]
          have hidxEq : (linesJoin bs1 ++ linesJoin mid0).length + bl.length + 2
              = (linesJoin (bs1 ++ (mid0 ++ [bl]))).length := by
            rw [linesJoin_append, linesJoin_concat]
            simp [List.length_append, crlf]
            omega
          rw [hretEq, hidxEq]
          have hclean2 : ∀ b ∈ bs3t ++ [lastB], cleanB b = true := by
            intro b hb
            apply hclean b
            rw [hbs]
            exact List.mem_append_right _ hb
          have hbye2 : ∀ b ∈ bs3t ++ [lastB], isPre byeTok b = false := by
            intro b hb
            apply hbye b
            rw [hbs]
            exact List.mem_append_right _ hb
          have htf2 : ∀ b ∈ (bs1 ++ (mid0 ++ [bl])) ++ bs3t,
              isPre term b = false := by
            intro b hb
            apply htf b
            rw [hfront]
            simp only [List.mem_append] at hb ⊢
            tauto
          have heq3 : p ++ concatChunks rest = linesJoin (bs3t ++ [lastB]) := hpt
          have happ := ih (bs1 ++ (mid0 ++ [bl])) bs3t p hchrest hclean2 hbye2
            htf2 hp heq3
          rw [happ]
          have hL1 : (bs1 ++ (mid0 ++ [bl])) ++ (bs3t ++ [lastB])
              = bs1 ++ (front2 ++ [lastB]) := by
            rw [hfront]
            simp [List.append_assoc]
          have hL2 : (bs1 ++ (mid0 ++ [bl])) ++ bs3t = bs1 ++ front2 := by
            rw [hfront]
            simp [List.append_assoc]
          rw [hL1, hL2]

/-- C2 amended: for any transport input equal to a concatenation of
CRLF-terminated server lines, none beginning with "* BYE" or with the
nonempty termination token, followed by a tagged completion line beginning
with the token, read_lines consumes the reads up to the completion line
and returns Ok with the full buffer when keep_termination is set, and with
the buffer minus the completion line when it is not, regardless of how the
bytes are split across the individual reads. -/
theorem read_lines_round_trip (front : List (List Char)) (lastB : List Char)
    (term : List Char) (chunks : List (List Char))
    (hclean : ∀ b ∈ front ++ [lastB], cleanB b = true)
    (hbye : ∀ b ∈ front ++ [lastB], isPre byeTok b = false)
    (htne : term.isEmpty = false)
    (htcr : CR ∉ term)
    (hmatch : isPre term lastB = true)
    (hfront : ∀ b ∈ front, isPre term b = false)
    (hchunks : ∀ c ∈ chunks, c.isEmpty = false)
    (hconcat : concatChunks chunks = linesJoin (front ++ [lastB])) :
    readLines term true chunks = .ok (linesJoin (front ++ [lastB])) ∧
      readLines term false chunks = .ok (linesJoin front) := by
  constructor
  · have h := readLoopOk term true lastB htne htcr hmatch chunks [] front []
      hchunks hclean hbye (by simpa using hfront) (by simp)
      (by simpa using hconcat)
    simpa [readLines, linesJoin] using h
  · have h := readLoopOk term false lastB htne htcr hmatch chunks [] front []
      hchunks hclean hbye (by simpa using hfront) (by simp)
      (by simpa using hconcat)
    simpa [readLines, linesJoin] using h

/-- C2 witness: the round trip evaluated on the two-line response
"* A"CRLF"M1 OK x"CRLF with termination token "M1 " and reads split in the
middle of the CRLF and in the middle of the completion line. -/
theorem read_lines_round_trip_witness :
    readLines (bytes "M1 ") true
        [bytes "* A" ++ [CR], LF :: bytes "M1 O", bytes "K x" ++ crlf]
      = .ok (linesJoin [bytes "* A", bytes "M1 OK x"]) ∧
    readLines (bytes "M1 ") false
        [bytes "* A" ++ [CR], LF :: bytes "M1 O", bytes "K x" ++ crlf]
      = .ok (linesJoin [bytes "* A"]) :=
  read_lines_round_trip [bytes "* A"] (bytes "M1 OK x") (bytes "M1 ")
    [bytes "* A" ++ [CR], LF :: bytes "M1 O", bytes "K x" ++ crlf]
    (by decide) (by decide) (by decide) (by decide) (by decide) (by decide)
    (by decide) (by decide)
